import Mathlib

/-!
Verification of the tokenizer of `src/lexer.rs` (crate `rkaley`).

The lexer is embedded shallowly: the `Peekable<Chars>` iterator state is the
list of characters not yet consumed, `Lexer::get_token` and `Lexer::next`
become the mutually recursive functions `getToken` and `lexNext` on that
state, and the `expect`-panic on a malformed number becomes `Except.error`.
Character classification uses Lean's ASCII `Char.isAlpha` / `Char.isAlphanum`
for Rust's `is_alphabetic` / `is_alphanumeric` (the ASCII fragment, which is
what every claim under consideration exercises) and `Char.isDigit` for
`is_digit(10)`, which is ASCII in Rust as well.

The payload of a `Number` token is kept as an exact rational: the only
property of Rust's `str::parse::<f64>` the program depends on is which
digit-and-dot spans parse at all, plus the values of spans whose value is
exactly representable, and both are captured by `parseF64` below.
-/

namespace RKaley

/-- The apostrophe character (code point 39). -/
def squote : Char := Char.ofNat 39

/-- The double-quote character (code point 34). -/
def dquote : Char := Char.ofNat 34

/-- The line-feed character `\n` (code point 10). -/
def lf : Char := Char.ofNat 10

/-- The carriage-return character `\r` (code point 13). -/
def cr : Char := Char.ofNat 13

/-- The horizontal-tab character (code point 9). -/
def tab : Char := Char.ofNat 9

/-- The token type of `lexer.rs`: `pub enum Token`. -/
inductive Token where
  | Define
  | Having
  | Assigned
  | Extern
  | Block
  | EndLine
  | Identifier (s : String)
  | Number (v : ℚ)
  | String (s : String)
  | UnknownChar (c : Char)
  deriving DecidableEq, Repr

instance {ε α : Type} [DecidableEq ε] [DecidableEq α] :
    DecidableEq (Except ε α) := fun a b =>
  match a, b with
  | .ok x, .ok y =>
    match decEq x y with
    | .isTrue h => .isTrue (h ▸ rfl)
    | .isFalse h => .isFalse fun hcon => h (Except.ok.inj hcon)
  | .error e, .error f =>
    match decEq e f with
    | .isTrue h => .isTrue (h ▸ rfl)
    | .isFalse h => .isFalse fun hcon => h (Except.error.inj hcon)
  | .ok _, .error _ => .isFalse fun hcon => Except.noConfusion hcon
  | .error _, .ok _ => .isFalse fun hcon => Except.noConfusion hcon

/-- Value of a digit run, most significant digit first. -/
def digitsVal (ds : List Char) : ℕ :=
  ds.foldl (fun a d => 10 * a + (d.toNat - 48)) 0

/-- Model of Rust's `str::parse::<f64>` on the spans `get_token` feeds it,
namely runs of decimal digits and dots.  Such a span parses successfully
exactly when it contains at least one digit and at most one dot (the float
grammar `digits [. digits*]` or `. digits+`); the value is returned as an
exact rational, since every value the claims mention is exactly representable
in an IEEE 64-bit float and rounding therefore never enters. -/
def parseF64 (s : List Char) : Option ℚ :=
  let intPart := s.takeWhile Char.isDigit
  match s.dropWhile Char.isDigit with
  | [] => if intPart = [] then none else some (digitsVal intPart)
  | d :: frac =>
    if d = '.' ∧ frac.all Char.isDigit ∧ (intPart ≠ [] ∨ frac ≠ []) then
      some ((digitsVal intPart : ℚ) + (digitsVal frac : ℚ) / 10 ^ frac.length)
    else none

/-- Length of `dropWhile` never exceeds the length of the input list. -/
theorem length_dropWhile_le {α : Type} (p : α → Bool) (l : List α) :
    (l.dropWhile p).length ≤ l.length := by
  induction l with
  | nil => simp [List.dropWhile]
  | cons x xs ih =>
    simp only [List.dropWhile]
    cases p x <;> simp <;> omega

mutual

/-- `Lexer::get_token`: `c` is the character just consumed by `next`, `cs` the
remaining input.  Returns the produced token (or `none` if a trailing comment
exhausts the input) together with the new remaining input; the Rust panic
`expect("Can't parse number")` is modelled by `Except.error`. -/
def getToken (c : Char) (cs : List Char) :
    Except String (Option Token × List Char) :=
  if c.isAlpha then
    let iden : String := ⟨c :: cs.takeWhile Char.isAlphanum⟩
    let rest := cs.dropWhile Char.isAlphanum
    if iden = "create" then .ok (some .Define, rest)
    else if iden = "extern" then .ok (some .Extern, rest)
    else if iden = "in" then .ok (some .Block, rest)
    else .ok (some (.Identifier iden), rest)
  else if c = squote then
    match cs with
    | x :: rest =>
      if x = 's' then .ok (some .Having, rest)
      else .ok (some (.UnknownChar c), rest)
    | [] => .ok (some (.UnknownChar c), [])
  else if c.isDigit || c = '.' then
    let num := c :: cs.takeWhile (fun d => d.isDigit || d = '.')
    let rest := cs.dropWhile (fun d => d.isDigit || d = '.')
    match parseF64 num with
    | some v => .ok (some (.Number v), rest)
    | none => .error "Can't parse number"
  else if c = dquote then
    let body : String := ⟨cs.takeWhile (fun d => d ≠ dquote)⟩
    let rest := (cs.dropWhile (fun d => d ≠ dquote)).tail
    .ok (some (.String body), rest)
  else if c = '=' then .ok (some .Assigned, cs)
  else if c = lf then .ok (some .EndLine, cs)
  else if c = '#' then
    lexNext (cs.dropWhile (fun d => d ≠ cr ∧ d ≠ lf))
  else .ok (some (.UnknownChar c), cs)
termination_by 2 * cs.length + 2
decreasing_by
  have h := length_dropWhile_le (fun d => decide (d ≠ cr ∧ d ≠ lf)) cs
  omega

/-- `<Lexer as Iterator>::next`: skip the run of space characters (`' '` only);
if the input is exhausted the stream ends, otherwise dispatch on the first
non-space character. -/
def lexNext (cs : List Char) : Except String (Option Token × List Char) :=
  match h : cs.dropWhile (fun d => d = ' ') with
  | [] => .ok (none, [])
  | c :: rest => getToken c rest
termination_by 2 * cs.length + 1
decreasing_by
  have h1 := length_dropWhile_le (fun d => decide (d = ' ')) cs
  rw [h] at h1
  simp only [List.length_cons] at h1
  omega

end

/-- Unfolding `lexNext` when skipping spaces exhausts the input. -/
theorem lexNext_nil {cs : List Char}
    (h : cs.dropWhile (fun d => d = ' ') = []) :
    lexNext cs = .ok (none, []) := by
  rw [lexNext, h]

/-- Unfolding `lexNext` when a non-space character is found: it is consumed
and dispatched to `get_token`. -/
theorem lexNext_cons {cs rest : List Char} {c : Char}
    (h : cs.dropWhile (fun d => d = ' ') = c :: rest) :
    lexNext cs = getToken c rest := by
  rw [lexNext, h]

/-- Unfolding `get_token` on an alphabetic character: greedy alphanumeric run,
then the keyword table. -/
theorem getToken_alpha {c : Char} (cs : List Char) (h : c.isAlpha = true) :
    getToken c cs =
      .ok (some (
        if (⟨c :: cs.takeWhile Char.isAlphanum⟩ : String) = "create" then
          Token.Define
        else if (⟨c :: cs.takeWhile Char.isAlphanum⟩ : String) = "extern" then
          Token.Extern
        else if (⟨c :: cs.takeWhile Char.isAlphanum⟩ : String) = "in" then
          Token.Block
        else Token.Identifier ⟨c :: cs.takeWhile Char.isAlphanum⟩),
        cs.dropWhile Char.isAlphanum) := by
  rw [getToken.eq_def]
  simp only [h, if_true]
  split_ifs <;> rfl

/-- Unfolding `get_token` on an apostrophe: one character of lookahead is
consumed unconditionally. -/
theorem getToken_squote (cs : List Char) :
    getToken squote cs =
      .ok (match cs with
        | x :: rest =>
          if x = 's' then (some Token.Having, rest)
          else (some (Token.UnknownChar squote), rest)
        | [] => (some (Token.UnknownChar squote), [])) := by
  rw [getToken.eq_def]
  have h1 : squote.isAlpha = false := by decide
  simp only [h1, Bool.false_eq_true, if_false, if_pos rfl]
  cases cs with
  | nil => rfl
  | cons x rest => by_cases hx : x = 's' <;> simp [hx]

/-- A digit is not alphabetic. -/
theorem isDigit_not_alpha {c : Char} (hd : c.isDigit = true) :
    c.isAlpha = false := by
  simp only [Char.isDigit, Char.isAlpha, Char.isUpper, Char.isLower,
    decide_eq_true_eq, Bool.and_eq_true, Bool.or_eq_false_iff,
    Bool.and_eq_false_iff, Char.le_def, decide_eq_false_iff_not, not_le,
    ge_iff_le] at *
  obtain ⟨h1, h2⟩ := hd
  have n2 : c.val.toNat ≤ (57 : UInt32).toNat := h2
  rw [show (57 : UInt32).toNat = 57 from rfl] at n2
  constructor
  · left
    intro hc
    have n3 : (65 : UInt32).toNat ≤ c.val.toNat := hc
    rw [show (65 : UInt32).toNat = 65 from rfl] at n3
    omega
  · left
    intro hc
    have n3 : (97 : UInt32).toNat ≤ c.val.toNat := hc
    rw [show (97 : UInt32).toNat = 97 from rfl] at n3
    omega

/-- The characters entering the numeric branch are not alphabetic. -/
theorem isDigit_or_dot_not_alpha {c : Char} (h : (c.isDigit || c = '.') = true) :
    c.isAlpha = false := by
  rcases Bool.or_eq_true_iff.mp h with hd | hd
  · exact isDigit_not_alpha hd
  · rw [of_decide_eq_true hd]
    decide

/-- Unfolding `get_token` on a digit or dot: greedy digit-and-dot run, then
the float parse, whose failure is the fatal branch. -/
theorem getToken_num {c : Char} (cs : List Char)
    (h : (c.isDigit || c = '.') = true) :
    getToken c cs =
      match parseF64 (c :: cs.takeWhile (fun d => d.isDigit || d = '.')) with
      | some v =>
          .ok (some (Token.Number v), cs.dropWhile (fun d => d.isDigit || d = '.'))
      | none => .error "Can't parse number" := by
  have ha : c.isAlpha = false := isDigit_or_dot_not_alpha h
  have hq : c ≠ squote := by
    intro hc
    rw [hc] at h
    exact absurd h (by decide)
  rw [getToken.eq_def]
  simp only [ha, Bool.false_eq_true, if_false, if_neg hq, h, if_true]

/-- Unfolding `get_token` on a double quote: the body is everything up to the
next quote, and one further character (the closing quote, when present) is
consumed and discarded. -/
theorem getToken_dquote (cs : List Char) :
    getToken dquote cs =
      .ok (some (Token.String ⟨cs.takeWhile (fun d => d ≠ dquote)⟩),
        (cs.dropWhile (fun d => d ≠ dquote)).tail) := by
  rw [getToken.eq_def]
  have h1 : dquote.isAlpha = false := by decide
  have h2 : dquote ≠ squote := by decide
  have h3 : (dquote.isDigit || dquote = '.') = false := by decide
  simp [h1, h2, h3]

/-- Unfolding `get_token` on `=`. -/
theorem getToken_assign (cs : List Char) :
    getToken '=' cs = .ok (some Token.Assigned, cs) := by
  rw [getToken.eq_def]
  simp [show '='.isAlpha = false from by decide,
    show '='.isDigit = false from by decide,
    show '=' ≠ squote from by decide, show '=' ≠ dquote from by decide]

/-- Unfolding `get_token` on `\n`. -/
theorem getToken_lf (cs : List Char) :
    getToken lf cs = .ok (some Token.EndLine, cs) := by
  rw [getToken.eq_def]
  simp [show lf.isAlpha = false from by decide,
    show lf.isDigit = false from by decide,
    show lf ≠ squote from by decide, show lf ≠ dquote from by decide,
    show lf ≠ '.' from by decide, show lf ≠ '=' from by decide]

/-- Unfolding `get_token` on `#`: the comment is skipped up to (not
including) the next carriage return or line feed, and the lexer retries via
`next`. -/
theorem getToken_hash (cs : List Char) :
    getToken '#' cs = lexNext (cs.dropWhile (fun d => d ≠ cr ∧ d ≠ lf)) := by
  rw [getToken.eq_def]
  simp [show '#'.isAlpha = false from by decide,
    show '#'.isDigit = false from by decide,
    show '#' ≠ squote from by decide, show '#' ≠ dquote from by decide,
    show '#' ≠ '.' from by decide, show '#' ≠ '=' from by decide,
    show '#' ≠ lf from by decide]

/-- Unfolding `get_token` on a character matching no start class. -/
theorem getToken_other {c : Char} (cs : List Char)
    (h1 : c.isAlpha = false) (h2 : c ≠ squote)
    (h3 : (c.isDigit || c = '.') = false) (h4 : c ≠ dquote)
    (h5 : c ≠ '=') (h6 : c ≠ lf) (h7 : c ≠ '#') :
    getToken c cs = .ok (some (Token.UnknownChar c), cs) := by
  rw [getToken.eq_def]
  simp only [h1, h3, Bool.false_eq_true, if_false, if_neg h2, if_neg h4,
    if_neg h5, if_neg h6, if_neg h7]

/-- `get_token` never makes the remaining input longer: every branch either
consumes characters or leaves the state unchanged, and the comment branch only
skips forward before retrying. -/
theorem getToken_rest_le :
    ∀ (n : ℕ) (c : Char) (cs : List Char), cs.length = n →
      ∀ (o : Option Token) (r : List Char),
        getToken c cs = .ok (o, r) → r.length ≤ cs.length := by
  intro n
  induction n using Nat.strong_induction_on with
  | _ n ih =>
    intro c cs hn o r h
    by_cases ha : c.isAlpha = true
    · rw [getToken_alpha cs ha] at h
      simp only [Except.ok.injEq, Prod.mk.injEq] at h
      obtain ⟨-, h2⟩ := h
      subst h2
      exact length_dropWhile_le _ _
    · by_cases hq : c = squote
      · subst hq
        rw [getToken_squote cs] at h
        cases cs with
        | nil =>
          simp only [Except.ok.injEq, Prod.mk.injEq] at h
          obtain ⟨-, h2⟩ := h
          subst h2
          simp
        | cons x rest =>
          by_cases hx : x = 's' <;>
            simp only [hx, if_true, if_neg, Except.ok.injEq, Prod.mk.injEq,
              reduceIte] at h <;>
          · obtain ⟨-, h2⟩ := h
            subst h2
            simp
      · by_cases hd : (c.isDigit || c = '.') = true
        · rw [getToken_num cs hd] at h
          cases hp : parseF64 (c :: cs.takeWhile fun d => d.isDigit || d = '.') with
          | none =>
            rw [hp] at h
            exact absurd h (by simp)
          | some v =>
            rw [hp] at h
            simp only [Except.ok.injEq, Prod.mk.injEq] at h
            obtain ⟨-, h2⟩ := h
            subst h2
            exact length_dropWhile_le _ _
        · by_cases hdq : c = dquote
          · subst hdq
            rw [getToken_dquote cs] at h
            simp only [Except.ok.injEq, Prod.mk.injEq] at h
            obtain ⟨-, h2⟩ := h
            subst h2
            have h3 := length_dropWhile_le (fun d => decide (d ≠ dquote)) cs
            have h4 := List.length_tail (cs.dropWhile fun d => decide (d ≠ dquote))
            omega
          · by_cases he : c = '='
            · subst he
              rw [getToken_assign cs] at h
              simp only [Except.ok.injEq, Prod.mk.injEq] at h
              obtain ⟨-, h2⟩ := h
              subst h2
              exact le_refl _
            · by_cases hlf : c = lf
              · subst hlf
                rw [getToken_lf cs] at h
                simp only [Except.ok.injEq, Prod.mk.injEq] at h
                obtain ⟨-, h2⟩ := h
                subst h2
                exact le_refl _
              · by_cases hh : c = '#'
                · subst hh
                  rw [getToken_hash cs] at h
                  have hb1 : (cs.dropWhile fun d => decide (d ≠ cr ∧ d ≠ lf)).length
                      ≤ cs.length := length_dropWhile_le _ _
                  cases hdw : (cs.dropWhile fun d => decide (d ≠ cr ∧ d ≠ lf)).dropWhile
                      (fun d => d = ' ') with
                  | nil =>
                    rw [lexNext_nil hdw] at h
                    simp only [Except.ok.injEq, Prod.mk.injEq] at h
                    obtain ⟨-, h2⟩ := h
                    subst h2
                    simp
                  | cons c' r' =>
                    rw [lexNext_cons hdw] at h
                    have hb2 : r'.length + 1
                        ≤ (cs.dropWhile fun d => decide (d ≠ cr ∧ d ≠ lf)).length := by
                      have h5 := length_dropWhile_le (fun d => decide (d = ' '))
                        (cs.dropWhile fun d => decide (d ≠ cr ∧ d ≠ lf))
                      rw [hdw] at h5
                      simpa using h5
                    have h6 := ih r'.length (by omega) c' r' rfl o r h
                    omega
                · rw [getToken_other cs (by simpa using ha) hq
                    (by simpa using hd) hdq he hlf hh] at h
                  simp only [Except.ok.injEq, Prod.mk.injEq] at h
                  obtain ⟨-, h2⟩ := h
                  subst h2
                  exact le_refl _

/-- `next` never makes the remaining input longer. -/
theorem lexNext_rest_le (cs : List Char) (o : Option Token) (r : List Char)
    (h : lexNext cs = .ok (o, r)) : r.length ≤ cs.length := by
  cases hdw : cs.dropWhile (fun d => d = ' ') with
  | nil =>
    rw [lexNext_nil hdw] at h
    simp only [Except.ok.injEq, Prod.mk.injEq] at h
    obtain ⟨-, h2⟩ := h
    subst h2
    simp
  | cons c rest =>
    rw [lexNext_cons hdw] at h
    have h1 := getToken_rest_le rest.length c rest rfl o r h
    have h2 : rest.length + 1 ≤ cs.length := by
      have h3 := length_dropWhile_le (fun d => decide (d = ' ')) cs
      rw [hdw] at h3
      simpa using h3
    omega

/-- Progress: whenever `next` produces a token, it has consumed at least one
character of the input.  This is the bound that makes a full tokenization
pass terminate. -/
theorem lexNext_progress (cs : List Char) (t : Token) (r : List Char)
    (h : lexNext cs = .ok (some t, r)) : r.length < cs.length := by
  cases hdw : cs.dropWhile (fun d => d = ' ') with
  | nil =>
    rw [lexNext_nil hdw] at h
    exact absurd h (by simp)
  | cons c rest =>
    rw [lexNext_cons hdw] at h
    have h1 := getToken_rest_le rest.length c rest rfl (some t) r h
    have h2 : rest.length + 1 ≤ cs.length := by
      have h3 := length_dropWhile_le (fun d => decide (d = ' ')) cs
      rw [hdw] at h3
      simpa using h3
    omega

/-- Driving the lexer to exhaustion: the full token sequence of an input, or
the fatal numeric-parse error if one is hit.  This models collecting the Rust
iterator into a vector. -/
def lexAll (cs : List Char) : Except String (List Token) :=
  match h : lexNext cs with
  | .error e => .error e
  | .ok (none, _) => .ok []
  | .ok (some t, rest) =>
    match lexAll rest with
    | .ok ts => .ok (t :: ts)
    | .error e => .error e
termination_by cs.length
decreasing_by exact lexNext_progress cs t rest h

/-- Result of the `(n+1)`-st consecutive call to `next`, starting from state
`cs` (errors abort the iteration). -/
def lexIter : ℕ → List Char → Except String (Option Token × List Char)
  | 0, cs => lexNext cs
  | n + 1, cs =>
    match lexNext cs with
    | .ok (_, r) => lexIter n r
    | .error e => .error e

/-- Fuel-indexed evaluator for `lexNext`, structurally recursive on the fuel
(consumed only when a comment is skipped) so that the kernel can evaluate it
on concrete inputs; `lexNextF_eq` below shows it agrees with `lexNext`
whenever the fuel covers the input length.  The `get_token` body is inlined. -/
def lexNextF : ℕ → List Char → Except String (Option Token × List Char)
  | fuel, cs =>
    match cs.dropWhile (fun d => d = ' ') with
    | [] => .ok (none, [])
    | c :: rest =>
      if c.isAlpha then
        let iden : String := ⟨c :: rest.takeWhile Char.isAlphanum⟩
        let rest' := rest.dropWhile Char.isAlphanum
        if iden = "create" then .ok (some .Define, rest')
        else if iden = "extern" then .ok (some .Extern, rest')
        else if iden = "in" then .ok (some .Block, rest')
        else .ok (some (.Identifier iden), rest')
      else if c = squote then
        match rest with
        | x :: rest' =>
          if x = 's' then .ok (some .Having, rest')
          else .ok (some (.UnknownChar c), rest')
        | [] => .ok (some (.UnknownChar c), [])
      else if c.isDigit || c = '.' then
        match parseF64 (c :: rest.takeWhile (fun d => d.isDigit || d = '.')) with
        | some v =>
          .ok (some (.Number v), rest.dropWhile (fun d => d.isDigit || d = '.'))
        | none => .error "Can't parse number"
      else if c = dquote then
        .ok (some (.String ⟨rest.takeWhile (fun d => d ≠ dquote)⟩),
          (rest.dropWhile (fun d => d ≠ dquote)).tail)
      else if c = '=' then .ok (some .Assigned, rest)
      else if c = lf then .ok (some .EndLine, rest)
      else if c = '#' then
        match fuel with
        | 0 => .error "out of fuel"
        | fuel' + 1 => lexNextF fuel' (rest.dropWhile (fun d => d ≠ cr ∧ d ≠ lf))
      else .ok (some (.UnknownChar c), rest)

/-- The fuel-indexed evaluator agrees with `lexNext` once the fuel covers the
input length. -/
theorem lexNextF_eq :
    ∀ (fuel : ℕ) (cs : List Char), cs.length ≤ fuel →
      lexNextF fuel cs = lexNext cs := by
  intro fuel
  induction fuel with
  | zero =>
    intro cs hf
    have hcs : cs = [] := List.length_eq_zero.mp (Nat.le_zero.mp hf)
    subst hcs
    rw [lexNext_nil (by rfl)]
    decide
  | succ fuel ih =>
    intro cs hf
    rw [lexNextF]
    cases hdw : cs.dropWhile (fun d => d = ' ') with
    | nil => rw [lexNext_nil hdw]
    | cons c rest =>
      rw [lexNext_cons hdw]
      have hrest : rest.length + 1 ≤ cs.length := by
        have h3 := length_dropWhile_le (fun d => decide (d = ' ')) cs
        rw [hdw] at h3
        simpa using h3
      by_cases ha : c.isAlpha = true
      · rw [getToken_alpha rest ha]
        simp only [ha, if_true]
        split_ifs <;> rfl
      · by_cases hq : c = squote
        · subst hq
          rw [getToken_squote rest]
          have h1 : squote.isAlpha = false := by decide
          simp only [h1, Bool.false_eq_true, if_false, if_pos rfl]
          cases rest with
          | nil => rfl
          | cons x rest' => by_cases hx : x = 's' <;> simp [hx]
        · by_cases hd : (c.isDigit || c = '.') = true
          · rw [getToken_num rest hd]
            have ha' : c.isAlpha = false := isDigit_or_dot_not_alpha hd
            simp only [ha', Bool.false_eq_true, if_false, if_neg hq, hd, if_true]
          · by_cases hdq : c = dquote
            · subst hdq
              rw [getToken_dquote rest]
              simp [show dquote.isAlpha = false from by decide,
                show dquote ≠ squote from by decide,
                show (dquote.isDigit || dquote = '.') = false from by decide]
            · by_cases he : c = '='
              · subst he
                rw [getToken_assign rest]
                simp [show '='.isAlpha = false from by decide,
                  show '='.isDigit = false from by decide,
                  show '=' ≠ squote from by decide,
                  show '=' ≠ dquote from by decide]
              · by_cases hlf : c = lf
                · subst hlf
                  rw [getToken_lf rest]
                  simp [show lf.isAlpha = false from by decide,
                    show lf.isDigit = false from by decide,
                    show lf ≠ squote from by decide,
                    show lf ≠ dquote from by decide,
                    show lf ≠ '.' from by decide,
                    show lf ≠ '=' from by decide]
                · by_cases hh : c = '#'
                  · subst hh
                    rw [getToken_hash rest]
                    have hfa : (rest.dropWhile
                        (fun d => decide (d ≠ cr ∧ d ≠ lf))).length ≤ fuel := by
                      have h4 := length_dropWhile_le
                        (fun d => decide (d ≠ cr ∧ d ≠ lf)) rest
                      omega
                    simp only [show '#'.isAlpha = false from by decide,
                      show ('#'.isDigit || '#' = '.') = false from by decide,
                      Bool.false_eq_true, if_false,
                      if_neg (show '#' ≠ squote from by decide),
                      if_neg (show '#' ≠ dquote from by decide),
                      if_neg (show '#' ≠ '=' from by decide),
                      if_neg (show '#' ≠ lf from by decide), if_pos rfl]
                    exact ih _ hfa
                  · rw [getToken_other rest (by simpa using ha) hq
                      (by simpa using hd) hdq he hlf hh]
                    simp only [ha, hd, Bool.false_eq_true, if_false,
                      if_neg hq, if_neg hdq, if_neg he, if_neg hlf, if_neg hh]

/-- Unfolding `lexAll` when `next` signals the end of the stream. -/
theorem lexAll_none {cs r : List Char} (h : lexNext cs = .ok (none, r)) :
    lexAll cs = .ok [] := by
  rw [lexAll, h]

/-- Unfolding `lexAll` when `next` produces a token. -/
theorem lexAll_some {cs r : List Char} {t : Token}
    (h : lexNext cs = .ok (some t, r)) :
    lexAll cs =
      match lexAll r with
      | .ok ts => .ok (t :: ts)
      | .error e => .error e := by
  rw [lexAll, h]

/-- Unfolding `lexAll` when `next` hits the fatal numeric-parse error. -/
theorem lexAll_error {cs : List Char} {e : String}
    (h : lexNext cs = .error e) : lexAll cs = .error e := by
  rw [lexAll, h]

/-- Fuel-indexed evaluator for `lexAll`; fuel bounds the number of tokens
still to be produced. -/
def lexAllF : ℕ → List Char → Except String (List Token)
  | 0, _ => .error "out of fuel"
  | fuel + 1, cs =>
    match lexNextF cs.length cs with
    | .error e => .error e
    | .ok (none, _) => .ok []
    | .ok (some t, rest) =>
      match lexAllF fuel rest with
      | .ok ts => .ok (t :: ts)
      | .error e => .error e

/-- The fuel-indexed evaluator agrees with `lexAll` once the fuel exceeds the
input length. -/
theorem lexAllF_eq :
    ∀ (fuel : ℕ) (cs : List Char), cs.length < fuel →
      lexAllF fuel cs = lexAll cs := by
  intro fuel
  induction fuel with
  | zero => intro cs hf; omega
  | succ fuel ih =>
    intro cs hf
    rw [lexAllF]
    rw [lexNextF_eq cs.length cs (le_refl _)]
    cases hx : lexNext cs with
    | error e => rw [lexAll_error hx]
    | ok p =>
      obtain ⟨o, r⟩ := p
      cases o with
      | none => rw [lexAll_none hx]
      | some t =>
        rw [lexAll_some hx]
        have hr : r.length < cs.length := lexNext_progress cs t r hx
        dsimp only
        rw [ih r (by omega)]

/-- Computation rule: `lexAll` can be evaluated through the structurally
recursive `lexAllF`. -/
theorem lexAll_eval (cs : List Char) : lexAll cs = lexAllF (cs.length + 1) cs :=
  (lexAllF_eq (cs.length + 1) cs (by omega)).symm

/-- Equal `next` results give equal token sequences. -/
theorem lexAll_congr {cs₁ cs₂ : List Char} (h : lexNext cs₁ = lexNext cs₂) :
    lexAll cs₁ = lexAll cs₂ := by
  cases hx : lexNext cs₂ with
  | error e => rw [lexAll_error (h.trans hx), lexAll_error hx]
  | ok p =>
    obtain ⟨o, r⟩ := p
    cases o with
    | none => rw [lexAll_none (h.trans hx), lexAll_none hx]
    | some t => rw [lexAll_some (h.trans hx), lexAll_some hx]

/-- Dropping a predicate-satisfying prefix before a longer list. -/
theorem dropWhile_append_of_pos {α : Type} {p : α → Bool} :
    ∀ {l₁ : List α} (l₂ : List α), (∀ a ∈ l₁, p a = true) →
      (l₁ ++ l₂).dropWhile p = l₂.dropWhile p
  | [], l₂, _ => by simp
  | x :: l₁, l₂, h => by
    have hx : p x = true := h x (by simp)
    simp only [List.cons_append, List.dropWhile_cons, hx, if_true]
    exact dropWhile_append_of_pos l₂ fun a ha => h a (by simp [ha])

/-- Leading space characters do not change the result of `next`. -/
theorem lexNext_append_spaces (sp cs : List Char) (h : ∀ c ∈ sp, c = ' ') :
    lexNext (sp ++ cs) = lexNext cs := by
  have hdw : (sp ++ cs).dropWhile (fun d => d = ' ')
      = cs.dropWhile (fun d => d = ' ') :=
    dropWhile_append_of_pos cs fun a ha => by simp [h a ha]
  cases hx : cs.dropWhile (fun d => d = ' ') with
  | nil => rw [lexNext_nil (hdw.trans hx), lexNext_nil hx]
  | cons c rest => rw [lexNext_cons (hdw.trans hx), lexNext_cons hx]

/-- Leading space characters do not change the token sequence. -/
theorem lexAll_append_spaces (sp cs : List Char) (h : ∀ c ∈ sp, c = ' ') :
    lexAll (sp ++ cs) = lexAll cs :=
  lexAll_congr (lexNext_append_spaces sp cs h)

/-- `takeWhile` of a list whose prefix satisfies `p` up to a witness that
fails `p`. -/
theorem takeWhile_append_sentinel {α : Type} {p : α → Bool} :
    ∀ {l₁ : List α} {x : α} (l₂ : List α), (∀ a ∈ l₁, p a = true) → p x = false →
      (l₁ ++ x :: l₂).takeWhile p = l₁
  | [], x, l₂, _, hx => by simp [List.takeWhile_cons, hx]
  | y :: l₁, x, l₂, h, hx => by
    have hy : p y = true := h y (by simp)
    simp only [List.cons_append, List.takeWhile_cons, hy, if_true, List.cons.injEq,
      true_and]
    exact takeWhile_append_sentinel l₂ (fun a ha => h a (by simp [ha])) hx

/-- `dropWhile` of a list whose prefix satisfies `p` up to a witness that
fails `p`. -/
theorem dropWhile_append_sentinel {α : Type} {p : α → Bool} :
    ∀ {l₁ : List α} {x : α} (l₂ : List α), (∀ a ∈ l₁, p a = true) → p x = false →
      (l₁ ++ x :: l₂).dropWhile p = x :: l₂
  | [], x, l₂, _, hx => by simp [List.dropWhile_cons, hx]
  | y :: l₁, x, l₂, h, hx => by
    have hy : p y = true := h y (by simp)
    simp only [List.cons_append, List.dropWhile_cons, hy, if_true]
    exact dropWhile_append_sentinel l₂ (fun a ha => h a (by simp [ha])) hx

/-- `takeWhile` keeps a list all of whose elements satisfy `p`. -/
theorem takeWhile_of_all {α : Type} {p : α → Bool} :
    ∀ {l : List α}, (∀ a ∈ l, p a = true) → l.takeWhile p = l
  | [], _ => rfl
  | y :: l, h => by
    have hy : p y = true := h y (by simp)
    simp only [List.takeWhile_cons, hy, if_true, List.cons.injEq, true_and]
    exact takeWhile_of_all fun a ha => h a (by simp [ha])

/-- `dropWhile` empties a list all of whose elements satisfy `p`. -/
theorem dropWhile_of_all {α : Type} {p : α → Bool} :
    ∀ {l : List α}, (∀ a ∈ l, p a = true) → l.dropWhile p = []
  | [], _ => rfl
  | y :: l, h => by
    have hy : p y = true := h y (by simp)
    simp only [List.dropWhile_cons, hy, if_true]
    exact dropWhile_of_all fun a ha => h a (by simp [ha])

/-- Bound on the number of tokens produced: a successful full tokenization
yields at most one token per input character. -/
theorem lexAll_length :
    ∀ (n : ℕ) (cs : List Char), cs.length = n →
      ∀ ts : List Token, lexAll cs = .ok ts → ts.length ≤ cs.length := by
  intro n
  induction n using Nat.strong_induction_on with
  | _ n ih =>
    intro cs hn ts h
    cases hx : lexNext cs with
    | error e => rw [lexAll_error hx] at h; exact absurd h (by simp)
    | ok p =>
      obtain ⟨o, r⟩ := p
      cases o with
      | none =>
        rw [lexAll_none hx] at h
        simp only [Except.ok.injEq] at h
        subst h
        simp
      | some t =>
        rw [lexAll_some hx] at h
        have hr : r.length < cs.length := lexNext_progress cs t r hx
        cases hy : lexAll r with
        | error e => rw [hy] at h; exact absurd h (by simp)
        | ok ts' =>
          rw [hy] at h
          simp only [Except.ok.injEq] at h
          subst h
          have h2 := ih r.length (by omega) r rfl ts' hy
          simp only [List.length_cons]
          omega

/-- C1: for every input whose first significant character is alphabetic, the
tokenizer greedily consumes the following alphanumeric characters into one
word and yields `Define` exactly when that word equals `"create"`, `Extern`
exactly when it equals `"extern"`, `Block` exactly when it equals `"in"`, and
otherwise `Identifier` carrying that exact word; in particular `"creates"`
yields `Identifier "creates"` and `"inside"` yields `Identifier "inside"`. -/
theorem claim_C1 :
    (∀ (cs rest : List Char) (c : Char),
      cs.dropWhile (fun d => d = ' ') = c :: rest → c.isAlpha = true →
      ∃ t : Token,
        lexNext cs = .ok (some t, rest.dropWhile Char.isAlphanum) ∧
        (t = Token.Define ↔
          (⟨c :: rest.takeWhile Char.isAlphanum⟩ : String) = "create") ∧
        (t = Token.Extern ↔
          (⟨c :: rest.takeWhile Char.isAlphanum⟩ : String) = "extern") ∧
        (t = Token.Block ↔
          (⟨c :: rest.takeWhile Char.isAlphanum⟩ : String) = "in") ∧
        (t ≠ Token.Define → t ≠ Token.Extern → t ≠ Token.Block →
          t = Token.Identifier ⟨c :: rest.takeWhile Char.isAlphanum⟩)) ∧
    lexAll "creates".toList = .ok [Token.Identifier "creates"] ∧
    lexAll "inside".toList = .ok [Token.Identifier "inside"] ∧
    lexAll "create".toList = .ok [Token.Define] ∧
    lexAll "extern".toList = .ok [Token.Extern] ∧
    lexAll "in".toList = .ok [Token.Block] := by
  refine ⟨?_, ?_, ?_, ?_, ?_, ?_⟩
  · intro cs rest c hdw ha
    rw [lexNext_cons hdw, getToken_alpha rest ha]
    refine ⟨_, rfl, ?_⟩
    split_ifs with h1 h2 h3
    · exact ⟨iff_of_true rfl h1,
        iff_of_false (by decide) (fun hw => by rw [h1] at hw; exact absurd hw (by decide)),
        iff_of_false (by decide) (fun hw => by rw [h1] at hw; exact absurd hw (by decide)),
        fun hne _ _ => absurd rfl hne⟩
    · exact ⟨iff_of_false (by decide) h1,
        iff_of_true rfl h2,
        iff_of_false (by decide) (fun hw => by rw [h2] at hw; exact absurd hw (by decide)),
        fun _ hne _ => absurd rfl hne⟩
    · exact ⟨iff_of_false (by decide) h1,
        iff_of_false (by decide) h2,
        iff_of_true rfl h3,
        fun _ _ hne => absurd rfl hne⟩
    · exact ⟨iff_of_false (by simp) h1,
        iff_of_false (by simp) h2,
        iff_of_false (by simp) h3,
        fun _ _ _ => rfl⟩
  all_goals rw [lexAll_eval]; decide

/-- C1 witness: the general branch of `claim_C1` instantiated at the concrete
input `"xy"`. -/
theorem claim_C1_witness :
    (("xy".toList.dropWhile (fun d => d = ' ') = 'x' :: ['y'])
      ∧ 'x'.isAlpha = true) ∧
    (∃ t : Token,
      lexNext "xy".toList = .ok (some t, List.dropWhile Char.isAlphanum ['y']) ∧
      (t = Token.Define ↔
        (⟨'x' :: List.takeWhile Char.isAlphanum ['y']⟩ : String) = "create") ∧
      (t = Token.Extern ↔
        (⟨'x' :: List.takeWhile Char.isAlphanum ['y']⟩ : String) = "extern") ∧
      (t = Token.Block ↔
        (⟨'x' :: List.takeWhile Char.isAlphanum ['y']⟩ : String) = "in") ∧
      (t ≠ Token.Define → t ≠ Token.Extern → t ≠ Token.Block →
        t = Token.Identifier ⟨'x' :: List.takeWhile Char.isAlphanum ['y']⟩)) :=
  ⟨⟨by decide, by decide⟩, claim_C1.1 "xy".toList ['y'] 'x' (by decide) (by decide)⟩

/-- C2: for every input whose next significant character is an apostrophe, the
tokenizer consumes exactly one following character; if it is `s` the result is
`Having`, and otherwise the result is `UnknownChar` carrying the apostrophe
while the consumed character is discarded and never re-examined; in particular
`"'x"` yields only `UnknownChar` of the apostrophe and no token for `x`. -/
theorem claim_C2 :
    (∀ (cs r : List Char),
      cs.dropWhile (fun d => d = ' ') = squote :: 's' :: r →
      lexNext cs = .ok (some Token.Having, r)) ∧
    (∀ (cs r : List Char) (x : Char),
      cs.dropWhile (fun d => d = ' ') = squote :: x :: r → x ≠ 's' →
      lexNext cs = .ok (some (Token.UnknownChar squote), r)) ∧
    (∀ cs : List Char,
      cs.dropWhile (fun d => d = ' ') = [squote] →
      lexNext cs = .ok (some (Token.UnknownChar squote), [])) ∧
    lexAll [squote, 'x'] = .ok [Token.UnknownChar squote] ∧
    lexAll [squote, 's'] = .ok [Token.Having] := by
  refine ⟨?_, ?_, ?_, ?_, ?_⟩
  · intro cs r hdw
    rw [lexNext_cons hdw, getToken_squote ('s' :: r)]
    rfl
  · intro cs r x hdw hx
    rw [lexNext_cons hdw, getToken_squote (x :: r)]
    simp [hx]
  · intro cs hdw
    rw [lexNext_cons hdw, getToken_squote []]
  all_goals rw [lexAll_eval]; decide

/-- C2 witness: the quirk branch of `claim_C2` at the concrete input `'x`. -/
theorem claim_C2_witness :
    ([squote, 'x'].dropWhile (fun d => d = ' ') = squote :: 'x' :: [] ∧ 'x' ≠ 's') ∧
    lexNext [squote, 'x'] = .ok (some (Token.UnknownChar squote), []) :=
  ⟨⟨by decide, by decide⟩,
    claim_C2.2.1 [squote, 'x'] [] 'x' (by decide) (by decide)⟩

/-- C3: for every input whose next significant character is a decimal digit or
a dot, the tokenizer greedily consumes the maximal digit-and-dot run; if that
span does not parse as a floating-point number (such as `1.2.3`), the lexer
aborts with the fatal numeric-parse failure, no token is produced, and the
whole tokenization pass fails. -/
theorem claim_C3 :
    (∀ (cs rest : List Char) (c : Char),
      cs.dropWhile (fun d => d = ' ') = c :: rest →
      (c.isDigit || c = '.') = true →
      parseF64 (c :: rest.takeWhile (fun d => d.isDigit || d = '.')) = none →
      lexNext cs = .error "Can't parse number" ∧
      lexAll cs = .error "Can't parse number") ∧
    lexAll "1.2.3".toList = .error "Can't parse number" := by
  constructor
  · intro cs rest c hdw hc hp
    have hnext : lexNext cs = .error "Can't parse number" := by
      rw [lexNext_cons hdw, getToken_num rest hc, hp]
    exact ⟨hnext, lexAll_error hnext⟩
  · rw [lexAll_eval]; decide

/-- C3 witness: `claim_C3` instantiated at the concrete input `1.2.3`. -/
theorem claim_C3_witness :
    ("1.2.3".toList.dropWhile (fun d => d = ' ') = '1' :: ".2.3".toList ∧
      ('1'.isDigit || '1' = '.') = true ∧
      parseF64 ('1' :: (".2.3".toList.takeWhile (fun d => d.isDigit || d = '.')))
        = none) ∧
    (lexNext "1.2.3".toList = .error "Can't parse number" ∧
      lexAll "1.2.3".toList = .error "Can't parse number") :=
  ⟨⟨by decide, by decide, by decide⟩,
    claim_C3.1 "1.2.3".toList ".2.3".toList '1' (by decide) (by decide) (by decide)⟩

/-- C4: every input consisting solely of whitespace produces the empty token
sequence, while the token-level skipping itself considers only the space
character: a lone tab is not skipped but becomes `UnknownChar`, and a lone
newline is not skipped but becomes `EndLine`. -/
theorem claim_C4 :
    (∀ cs : List Char, (∀ c ∈ cs, c = ' ') → lexAll cs = .ok []) ∧
    lexAll [tab] = .ok [Token.UnknownChar tab] ∧
    lexAll [lf] = .ok [Token.EndLine] := by
  refine ⟨?_, ?_, ?_⟩
  · intro cs h
    exact lexAll_none (lexNext_nil (dropWhile_of_all fun a ha => by simp [h a ha]))
  all_goals rw [lexAll_eval]; decide

/-- C4 witness: `claim_C4` instantiated at the concrete input of three
spaces. -/
theorem claim_C4_witness :
    (∀ c ∈ [' ', ' ', ' '], c = ' ') ∧ lexAll [' ', ' ', ' '] = .ok [] :=
  ⟨by decide, claim_C4.1 [' ', ' ', ' '] (by decide)⟩

/-- C5: for every input whose next significant character is a double quote,
the tokenizer yields `String` whose payload is exactly the characters between
that quote and the next double quote, with both delimiters excluded and the
closing quote consumed; if the input ends before a closing quote appears, the
payload is all remaining characters and no error is raised. -/
theorem claim_C5 :
    (∀ (cs rest body after : List Char),
      cs.dropWhile (fun d => d = ' ') = dquote :: rest →
      rest = body ++ dquote :: after → dquote ∉ body →
      lexNext cs = .ok (some (Token.String ⟨body⟩), after)) ∧
    (∀ (cs rest : List Char),
      cs.dropWhile (fun d => d = ' ') = dquote :: rest → dquote ∉ rest →
      lexNext cs = .ok (some (Token.String ⟨rest⟩), [])) ∧
    lexAll (dquote :: "abc".toList) = .ok [Token.String "abc"] ∧
    lexAll (dquote :: "hello world!".toList ++ [dquote])
      = .ok [Token.String "hello world!"] := by
  refine ⟨?_, ?_, ?_, ?_⟩
  · intro cs rest body after hdw hsplit hmem
    subst hsplit
    rw [lexNext_cons hdw, getToken_dquote (body ++ dquote :: after)]
    have hall : ∀ a ∈ body, (decide (a ≠ dquote)) = true := fun a ha => by
      simp
      intro hc
      exact hmem (hc ▸ ha)
    rw [takeWhile_append_sentinel after hall (by simp),
      dropWhile_append_sentinel after hall (by simp)]
    rfl
  · intro cs rest hdw hmem
    rw [lexNext_cons hdw, getToken_dquote rest]
    have hall : ∀ a ∈ rest, (decide (a ≠ dquote)) = true := fun a ha => by
      simp
      intro hc
      exact hmem (hc ▸ ha)
    rw [takeWhile_of_all hall, dropWhile_of_all hall]
    rfl
  all_goals rw [lexAll_eval]; decide

/-- C5 witness: the unterminated-string branch of `claim_C5` at the concrete
input `"abc` (opening quote, no closing quote). -/
theorem claim_C5_witness :
    ((dquote :: "abc".toList).dropWhile (fun d => d = ' ')
        = dquote :: "abc".toList ∧
      dquote ∉ "abc".toList) ∧
    lexNext (dquote :: "abc".toList) = .ok (some (Token.String ⟨"abc".toList⟩), []) :=
  ⟨⟨by decide, by decide⟩,
    claim_C5.2.1 (dquote :: "abc".toList) "abc".toList (by decide) (by decide)⟩

/-- C6: for every input whose next significant character is a digit or a dot
and whose maximal digit-and-dot span parses as a floating-point number, the
tokenizer yields `Number` carrying that value; in particular `"1"` yields
`Number 1` and `".5"` yields `Number (1/2)`. -/
theorem claim_C6 :
    (∀ (cs rest : List Char) (c : Char) (v : ℚ),
      cs.dropWhile (fun d => d = ' ') = c :: rest →
      (c.isDigit || c = '.') = true →
      parseF64 (c :: rest.takeWhile (fun d => d.isDigit || d = '.')) = some v →
      lexNext cs
        = .ok (some (Token.Number v), rest.dropWhile (fun d => d.isDigit || d = '.'))) ∧
    lexAll "1".toList = .ok [Token.Number 1] ∧
    lexAll ".5".toList = .ok [Token.Number ((1 : ℚ) / 2)] := by
  refine ⟨?_, ?_, ?_⟩
  · intro cs rest c v hdw hc hp
    rw [lexNext_cons hdw, getToken_num rest hc, hp]
  · rw [lexAll_eval]; decide
  · have h1 : parseF64 ['.', '5'] = some ((1 : ℚ) / 2) := by
      rw [parseF64]
      simp only [show '.'.isDigit = false from by decide,
        show '5'.isDigit = true from by decide, List.takeWhile, List.dropWhile]
      norm_num [digitsVal]
      exact ⟨by decide, by norm_num [show ('5'.toNat - 48 : ℕ) = 5 from by decide]⟩
    have h2 : lexNext ".5".toList = .ok (some (Token.Number ((1 : ℚ) / 2)), []) := by
      rw [lexNext_cons
        (by decide : (".5".toList).dropWhile (fun d => d = ' ') = '.' :: ['5'])]
      rw [getToken_num ['5'] (by decide)]
      rw [show List.takeWhile (fun d => d.isDigit || d = '.') ['5'] = ['5'] from
        by decide]
      rw [show List.dropWhile (fun d => d.isDigit || d = '.') ['5'] = ([] : List Char)
        from by decide]
      rw [h1]
    rw [lexAll_some h2, lexAll_none (lexNext_nil (by decide))]

/-- C6 witness: `claim_C6` instantiated at the concrete input `7`. -/
theorem claim_C6_witness :
    ("7".toList.dropWhile (fun d => d = ' ') = '7' :: [] ∧
      ('7'.isDigit || '7' = '.') = true ∧
      parseF64 ('7' :: ([].takeWhile (fun d => d.isDigit || d = '.'))) = some 7) ∧
    lexNext "7".toList
      = .ok (some (Token.Number 7), [].dropWhile (fun d => d.isDigit || d = '.')) :=
  ⟨⟨by decide, by decide, by decide⟩,
    claim_C6.1 "7".toList [] '7' 7 (by decide) (by decide) (by decide)⟩

/-- C7 counterexample: the claim quantifies over every input containing `#`,
but a `#` inside a string literal is part of the string body, not a comment:
for the input `"#"` (quote, hash, quote) the characters from the `#` on are
not discarded, and the token sequence differs from that of the input with the
would-be comment span (`#` up to end of input) removed. -/
theorem claim_C7_counterexample :
    '#' ∈ [dquote, '#', dquote] ∧
    lexAll [dquote, '#', dquote] = .ok [Token.String "#"] ∧
    lexAll [dquote] = .ok [Token.String ""] ∧
    lexAll [dquote, '#', dquote] ≠ lexAll [dquote] := by
  refine ⟨by decide, ?_, ?_, ?_⟩ <;> simp only [lexAll_eval] <;> decide

/-- C7 (amended): for every input whose next significant character is `#`
(so the `#` is in token-dispatch position, not inside a string literal or
consumed as apostrophe lookahead), all characters from the `#` up to (not
including) the next `\r`, `\n`, or end of input are discarded, token
production retries from that position, and the token sequence equals that of
the same input with the comment span removed. -/
theorem claim_C7 :
    (∀ (cs rest : List Char),
      cs.dropWhile (fun d => d = ' ') = '#' :: rest →
      lexNext cs = lexNext (rest.dropWhile (fun d => d ≠ cr ∧ d ≠ lf)) ∧
      lexAll cs = lexAll (cs.takeWhile (fun d => d = ' ')
        ++ rest.dropWhile (fun d => d ≠ cr ∧ d ≠ lf))) ∧
    lexAll ('1' :: ' ' :: '#' :: 'c' :: lf :: '2' :: [])
      = .ok [Token.Number 1, Token.EndLine, Token.Number 2] ∧
    lexAll ('#' :: 'x' :: []) = .ok [] := by
  refine ⟨?_, ?_, ?_⟩
  · intro cs rest hdw
    have hnext : lexNext cs = lexNext (rest.dropWhile (fun d => d ≠ cr ∧ d ≠ lf)) := by
      rw [lexNext_cons hdw, getToken_hash rest]
    refine ⟨hnext, ?_⟩
    rw [lexAll_congr hnext]
    rw [lexAll_append_spaces (cs.takeWhile (fun d => d = ' ')) _
      (fun c hc => by simpa using List.mem_takeWhile_imp hc)]
  all_goals rw [lexAll_eval]; decide

/-- C7 witness: the amended claim instantiated at the concrete input
`#x\n2`. -/
theorem claim_C7_witness :
    (('#' :: 'x' :: lf :: '2' :: []).dropWhile (fun d => d = ' ')
      = '#' :: ('x' :: lf :: '2' :: [])) ∧
    (lexNext ('#' :: 'x' :: lf :: '2' :: [])
        = lexNext (('x' :: lf :: '2' :: []).dropWhile (fun d => d ≠ cr ∧ d ≠ lf)) ∧
      lexAll ('#' :: 'x' :: lf :: '2' :: [])
        = lexAll (('#' :: 'x' :: lf :: '2' :: []).takeWhile (fun d => d = ' ')
            ++ ('x' :: lf :: '2' :: []).dropWhile (fun d => d ≠ cr ∧ d ≠ lf))) :=
  ⟨by decide, claim_C7.1 ('#' :: 'x' :: lf :: '2' :: []) ('x' :: lf :: '2' :: [])
    (by decide)⟩

/-- C8: space characters between tokens never affect the tokens produced:
every pull of the lexer first discards leading spaces, so a run of spaces
prepended at any point where a token is about to be pulled leaves both the
next token and the whole remaining sequence unchanged; in particular
`"1+1-foo"` and `"1 + 1 - foo"` tokenize identically, with no extra tokens
for the spaces. -/
theorem claim_C8 :
    (∀ (sp cs : List Char), (∀ c ∈ sp, c = ' ') →
      lexNext (sp ++ cs) = lexNext cs) ∧
    (∀ (sp cs : List Char), (∀ c ∈ sp, c = ' ') →
      lexAll (sp ++ cs) = lexAll cs) ∧
    lexAll "1 + 1 - foo".toList = lexAll "1+1-foo".toList ∧
    lexAll "1+1-foo".toList = .ok [Token.Number 1, Token.UnknownChar '+',
      Token.Number 1, Token.UnknownChar '-', Token.Identifier "foo"] := by
  refine ⟨lexNext_append_spaces, lexAll_append_spaces, ?_, ?_⟩
  · simp only [lexAll_eval]
    decide
  · rw [lexAll_eval]
    decide

/-- C8 witness: `claim_C8` instantiated at two spaces prepended to `1`. -/
theorem claim_C8_witness :
    (∀ c ∈ [' ', ' '], c = ' ') ∧ lexNext ([' ', ' '] ++ ['1']) = lexNext ['1'] :=
  ⟨by decide, claim_C8.1 [' ', ' '] ['1'] (by decide)⟩

/-- C9: end of sequence is stable and is not an error: once the remaining
input is empty, every further call to `next` — after any number of preceding
calls — returns `ok` with no token, leaving the state empty, indefinitely. -/
theorem claim_C9 : ∀ n : ℕ, lexIter n [] = .ok (none, []) := by
  intro n
  induction n with
  | zero =>
    show lexNext [] = .ok (none, [])
    exact @lexNext_nil [] rfl
  | succ n ih =>
    show (match lexNext [] with
      | .ok (_, r) => lexIter n r
      | .error e => .error e) = .ok (none, [])
    rw [@lexNext_nil [] rfl]
    exact ih

/-- C10: every call to produce the next token terminates and makes progress:
a produced token always strictly consumes input (the comment-skip retry
consumes at least the `#`), so a complete tokenization pass over any finite
input terminates, producing at most one token per input character. -/
theorem claim_C10 :
    (∀ (cs r : List Char) (t : Token),
      lexNext cs = .ok (some t, r) → r.length < cs.length) ∧
    (∀ (cs : List Char) (ts : List Token),
      lexAll cs = .ok ts → ts.length ≤ cs.length) :=
  ⟨fun cs r t h => lexNext_progress cs t r h,
    fun cs ts h => lexAll_length cs.length cs rfl ts h⟩

/-- C10 witness: `claim_C10` instantiated at the concrete input `a`. -/
theorem claim_C10_witness :
    lexNext ['a'] = .ok (some (Token.Identifier "a"), []) ∧
    ([] : List Char).length < ['a'].length := by
  have h : lexNext ['a'] = .ok (some (Token.Identifier "a"), []) := by
    rw [lexNext_cons
      (by decide : (['a'] : List Char).dropWhile (fun d => d = ' ') = 'a' :: []),
      getToken_alpha [] (by decide)]
    decide
  exact ⟨h, claim_C10.1 ['a'] [] (Token.Identifier "a") h⟩

end RKaley
